import Mathlib

/-!
Verification of the diff aligner in `parser/parser.go` (package `parser`).

The Go source consumes unified-diff text line by line and produces a list of
aligned rows.  We embed it shallowly: a scanned text line is a `List Char`
(Go strings are byte sequences; every marker the parser inspects is ASCII, so
character-level prefixes and head characters coincide with Go's byte-level
`strings.HasPrefix` and `line[0]`), `*DiffLine` pointers become
`Option DiffLine`, Go's zero-valued `Number int` field becomes the `Nat` 0,
and the accumulating local variables of `Parse` become an explicit
`ParseState` threaded through a fold over the scanned lines.
-/

namespace Diffbubble

/-- `LineKind` from parser.go: the semantic meaning of a diff line. -/
inductive LineKind where
  | unknown
  | context
  | addition
  | deletion
  | header
deriving DecidableEq, Repr

/-- `DiffLine` from parser.go: a single diff line belonging to one side.
`Number` is 0 when unset (Go zero value). -/
structure DiffLine where
  number : Nat
  content : List Char
  kind : LineKind
deriving DecidableEq, Repr

/-- `DiffRow` from parser.go: two aligned lines; `none` is a nil pointer. -/
structure DiffRow where
  left : Option DiffLine
  right : Option DiffLine
deriving DecidableEq, Repr

/-- The mutable locals of `Parse`: accumulated rows, the two pending buffers
and the two line counters. -/
structure ParseState where
  rows : List DiffRow
  pendingMinus : List DiffLine
  pendingPlus : List DiffLine
  leftLineNum : Nat
  rightLineNum : Nat
deriving DecidableEq, Repr

/-- The state at the top of `Parse`: no rows, empty buffers, counters at 1. -/
def initState : ParseState :=
  { rows := [], pendingMinus := [], pendingPlus := [],
    leftLineNum := 1, rightLineNum := 1 }

/-- Tail of the `flush` loop once the pending-deletions buffer is
exhausted (`i ≥ len(pendingMinus)`): each remaining iteration emits a row
with an absent old side and the next pending addition on the new side,
numbered with the new counter, which is then incremented.  Returns the
emitted rows and the updated new counter. -/
def flushPlusRows : List DiffLine → Nat → List DiffRow × Nat
  | [], r => ([], r)
  | p :: pp, r =>
      let rest := flushPlusRows pp (r + 1)
      ({ left := none, right := some { p with number := r } } :: rest.1,
        rest.2)

/-- The body of the `flush` closure's `for` loop: walk the two pending
buffers in step (index `i` of the Go loop corresponds to the position in the
lists), emitting one row per index up to the longer buffer's length; a side
is present iff its buffer still has an element at this index, and a present
side receives the side's counter, which is then incremented.  Returns the
emitted rows and the updated counters. -/
def flushRows : List DiffLine → List DiffLine → Nat → Nat →
    List DiffRow × Nat × Nat
  | [], pp, l, r =>
      let rest := flushPlusRows pp r
      (rest.1, l, rest.2)
  | m :: pm, [], l, r =>
      let rest := flushRows pm [] (l + 1) r
      ({ left := some { m with number := l }, right := none } :: rest.1,
        rest.2.1, rest.2.2)
  | m :: pm, p :: pp, l, r =>
      let rest := flushRows pm pp (l + 1) (r + 1)
      ({ left := some { m with number := l },
         right := some { p with number := r } } :: rest.1,
        rest.2.1, rest.2.2)

/-- The `flush` closure: append the aligned rows built from the pending
buffers, update both counters, and clear both buffers. -/
def ParseState.flush (st : ParseState) : ParseState :=
  let res := flushRows st.pendingMinus st.pendingPlus
      st.leftLineNum st.rightLineNum
  { rows := st.rows ++ res.1, pendingMinus := [], pendingPlus := [],
    leftLineNum := res.2.1, rightLineNum := res.2.2 }

/-- First `switch` of the scan loop, metadata cases: `strings.HasPrefix`
against `diff`, `index`, `---`, `+++`. -/
def isMetadata (line : List Char) : Bool :=
  "diff".toList.isPrefixOf line || "index".toList.isPrefixOf line ||
    "---".toList.isPrefixOf line || "+++".toList.isPrefixOf line

/-- The header row emitted for a `@@` line: both sides carry a header-kind
line with the full header text and no (zero) number. -/
def headerRow (line : List Char) : DiffRow :=
  { left := some { number := 0, content := line, kind := LineKind.header },
    right := some { number := 0, content := line, kind := LineKind.header } }

/-- A context row: both sides carry the same content, each numbered with its
side's counter. -/
def contextRow (l r : Nat) (line : List Char) : DiffRow :=
  { left := some { number := l, content := line, kind := LineKind.context },
    right := some { number := r, content := line, kind := LineKind.context } }

/-- One iteration of the scan loop of `Parse` on the line `scanner.Text()`
returned: metadata lines are skipped; `@@` lines flush and emit a header
row; an empty line flushes and emits an empty context row, advancing both
counters; otherwise dispatch on the first character: `-` and `+` buffer the
line, a space flushes and emits a context row advancing both counters, and
anything else is ignored. -/
def processLine (st : ParseState) (line : List Char) : ParseState :=
  if isMetadata line then
    st
  else if "@@".toList.isPrefixOf line then
    let st' := st.flush
    { st' with rows := st'.rows ++ [headerRow line] }
  else
    match line with
    | [] =>
        let st' := st.flush
        { st' with
          rows := st'.rows ++ [contextRow st'.leftLineNum st'.rightLineNum []],
          leftLineNum := st'.leftLineNum + 1,
          rightLineNum := st'.rightLineNum + 1 }
    | c :: _ =>
        if c = '-' then
          { st with pendingMinus := st.pendingMinus ++
              [{ number := 0, content := line, kind := LineKind.deletion }] }
        else if c = '+' then
          { st with pendingPlus := st.pendingPlus ++
              [{ number := 0, content := line, kind := LineKind.addition }] }
        else if c = ' ' then
          let st' := st.flush
          { st' with
            rows := st'.rows ++
              [contextRow st'.leftLineNum st'.rightLineNum line],
            leftLineNum := st'.leftLineNum + 1,
            rightLineNum := st'.rightLineNum + 1 }
        else
          st

/-- The final state of `Parse` over the scanned lines: fold the loop body
over the lines, then perform the final flush. -/
def parseState (lines : List (List Char)) : ParseState :=
  (List.foldl processLine initState lines).flush

/-- The rows `Parse` returns for a given sequence of scanned lines. -/
def parseLines (lines : List (List Char)) : List DiffRow :=
  (parseState lines).rows

/-- The input as `Parse` sees it through `bufio.Scanner`: the lines the
scanner delivered before stopping, and `scanner.Err()` — `none` when the
scan ended at clean end of input, `some` describing the read failure
otherwise. -/
structure ScannerInput where
  lines : List (List Char)
  readErr : Option (List Char)
deriving DecidableEq, Repr

/-- `Parse`: returns the accumulated rows together with `scanner.Err()`;
the rows built so far are returned even when the error is set. -/
def Parse (input : ScannerInput) : List DiffRow × Option (List Char) :=
  (parseLines input.lines, input.readErr)

/-- Maximum token size handed to `scanner.Buffer` in `Parse`: 4*1024*1024. -/
def maxTokenSize : Nat := 4 * 1024 * 1024

/-- Byte length of a line, as Go's `len` on a string: the UTF-8 size. -/
def byteLen (line : List Char) : Nat := (line.map Char.utf8Size).sum

/-- Model of `bufio.Scanner` with the buffer limit set by `Parse`: the
scanner delivers each physical line whose byte length fits the maximum
token size, and stops with `bufio.Scanner: token too long` at the first
line that exceeds it. -/
def scanWithLimit : List (List Char) → ScannerInput
  | [] => { lines := [], readErr := none }
  | l :: ls =>
      if maxTokenSize < byteLen l then
        { lines := [], readErr := some "bufio.Scanner: token too long".toList }
      else
        let rest := scanWithLimit ls
        { lines := l :: rest.lines, readErr := rest.readErr }

/-- `Parse` applied to a raw physical stream through the scanner model. -/
def ParseRaw (phys : List (List Char)) : List DiffRow × Option (List Char) :=
  Parse (scanWithLimit phys)

/-! ### Projections of the row sequence used to state the invariants -/

/-- The line numbers of the present, numbered (non-header) old-side lines,
in row order. -/
def leftNums (rows : List DiffRow) : List Nat :=
  rows.filterMap fun row => row.left.bind fun l =>
    if l.kind = LineKind.header then none else some l.number

/-- The line numbers of the present, numbered (non-header) new-side lines,
in row order. -/
def rightNums (rows : List DiffRow) : List Nat :=
  rows.filterMap fun row => row.right.bind fun l =>
    if l.kind = LineKind.header then none else some l.number

/-- Contents of the present old-side lines of kind deletion or context,
in row order: the old-file content the rows display. -/
def leftContentsDC (rows : List DiffRow) : List (List Char) :=
  rows.filterMap fun row => row.left.bind fun l =>
    if l.kind = LineKind.deletion ∨ l.kind = LineKind.context then
      some l.content
    else none

/-- Contents of the present new-side lines of kind addition or context,
in row order: the new-file content the rows display. -/
def rightContentsAC (rows : List DiffRow) : List (List Char) :=
  rows.filterMap fun row => row.right.bind fun l =>
    if l.kind = LineKind.addition ∨ l.kind = LineKind.context then
      some l.content
    else none

/-- No cross-contamination: a present old-side line is never an addition,
a present new-side line is never a deletion. -/
def noCross (row : DiffRow) : Bool :=
  (match row.left with
    | some l => decide (l.kind ≠ LineKind.addition)
    | none => true) &&
  (match row.right with
    | some l => decide (l.kind ≠ LineKind.deletion)
    | none => true)

/-- A present line carries a number at least 1 exactly when it is not a
header; header lines carry the unset number 0. -/
def numberOK : Option DiffLine → Bool
  | none => true
  | some l =>
      if l.kind = LineKind.header then decide (l.number = 0)
      else decide (1 ≤ l.number)

/-- The admissible shapes of a row: a context row (both sides present,
equal content), a header row (both sides present, equal content), a
deletion paired with an addition, a deletion alone, or an addition alone;
never two absent sides; and every present line's number agrees with
`numberOK`. -/
def shapeOK (row : DiffRow) : Bool :=
  numberOK row.left && numberOK row.right &&
  match row.left, row.right with
  | some l, some r =>
      (decide (l.kind = LineKind.context) && decide (r.kind = LineKind.context)
        && decide (l.content = r.content)) ||
      (decide (l.kind = LineKind.header) && decide (r.kind = LineKind.header)
        && decide (l.content = r.content)) ||
      (decide (l.kind = LineKind.deletion)
        && decide (r.kind = LineKind.addition))
  | some l, none => decide (l.kind = LineKind.deletion)
  | none, some r => decide (r.kind = LineKind.addition)
  | none, none => false

/-- The loop invariant of `Parse`: the numbered old-side lines are numbered
`1, 2, 3, …` in row order and the old counter sits one past their count
(same on the new side), the pending minus buffer holds only deletions and
the pending plus buffer only additions, and every emitted row is
cross-contamination free and well-shaped. -/
def Inv (st : ParseState) : Prop :=
  leftNums st.rows = List.range' 1 (leftNums st.rows).length ∧
  st.leftLineNum = 1 + (leftNums st.rows).length ∧
  rightNums st.rows = List.range' 1 (rightNums st.rows).length ∧
  st.rightLineNum = 1 + (rightNums st.rows).length ∧
  (∀ x ∈ st.pendingMinus, x.kind = LineKind.deletion) ∧
  (∀ x ∈ st.pendingPlus, x.kind = LineKind.addition) ∧
  (∀ row ∈ st.rows, noCross row = true) ∧
  (∀ row ∈ st.rows, shapeOK row = true)

/-- Reference definition following the spec's words, for comparison with the
parser: the old-file content contributed by one input line.  Per the spec's
conventions, metadata lines (`diff`, `index`, `---`, `+++`) and hunk headers
carry no file content; a deletion (first character `-`) and a context line
(first character a space, or a zero-length line, whose content is empty)
belong to the old file, in arrival order; additions and unrecognized
markers contribute nothing to the old side. -/
def specOldLine (line : List Char) : Option (List Char) :=
  if isMetadata line then none
  else if "@@".toList.isPrefixOf line then none
  else
    match line with
    | [] => some []
    | c :: _ => if c = '-' ∨ c = ' ' then some line else none

/-- Reference definition following the spec's words: the new-file content
contributed by one input line — additions (first character `+`) and context
lines, in arrival order. -/
def specNewLine (line : List Char) : Option (List Char) :=
  if isMetadata line then none
  else if "@@".toList.isPrefixOf line then none
  else
    match line with
    | [] => some []
    | c :: _ => if c = '+' ∨ c = ' ' then some line else none

/-- The rows a flush appends. -/
def flushNew (st : ParseState) : List DiffRow :=
  (flushRows st.pendingMinus st.pendingPlus st.leftLineNum st.rightLineNum).1

/-- A line of 4 MiB + 1 bytes: over the scanner's token-size limit. -/
def bigLine : List Char := List.replicate (4 * 1024 * 1024 + 1) 'a'

/-! ### Behaviour of `flushRows` -/

/-- Counting behaviour of the right-only tail of the flush loop. -/
theorem flushPlusRows_counts (pp : List DiffLine) (r : Nat) :
    (flushPlusRows pp r).2 = r + pp.length ∧
    (flushPlusRows pp r).1.length = pp.length ∧
    ((flushPlusRows pp r).1.map fun row => row.left.isSome) =
      List.replicate pp.length false ∧
    ((flushPlusRows pp r).1.map fun row => row.right.isSome) =
      List.replicate pp.length true := by
  induction pp generalizing r with
  | nil => simp [flushPlusRows]
  | cons p pp ih =>
      obtain ⟨h1, h2, h3, h4⟩ := ih (r + 1)
      refine ⟨?_, ?_, ?_, ?_⟩ <;>
        simp [flushPlusRows, h1, h2, h3, h4, List.replicate_succ] <;> omega

/-- Counting behaviour of the flush loop, independent of line kinds: the
counters advance by exactly the length of the respective buffer, the loop
emits `max` of the two buffer lengths many rows, and a side is present in
the emitted rows exactly on the indices below its buffer's length. -/
theorem flushRows_counts (pm pp : List DiffLine) (l r : Nat) :
    (flushRows pm pp l r).2.1 = l + pm.length ∧
    (flushRows pm pp l r).2.2 = r + pp.length ∧
    (flushRows pm pp l r).1.length = max pm.length pp.length ∧
    ((flushRows pm pp l r).1.map fun row => row.left.isSome) =
      List.replicate pm.length true ++
        List.replicate (max pm.length pp.length - pm.length) false ∧
    ((flushRows pm pp l r).1.map fun row => row.right.isSome) =
      List.replicate pp.length true ++
        List.replicate (max pm.length pp.length - pp.length) false := by
  induction pm, pp, l, r using flushRows.induct with
  | case1 pp l r =>
      obtain ⟨h1, h2, h3, h4⟩ := flushPlusRows_counts pp r
      refine ⟨?_, ?_, ?_, ?_, ?_⟩ <;>
        simp [flushRows, h1, h2, h3, h4]
  | case2 m pm l r ih =>
      obtain ⟨h1, h2, h3, h4, h5⟩ := ih
      refine ⟨?_, ?_, ?_, ?_, ?_⟩ <;>
        simp [flushRows, h1, h2, h3, h4, h5, List.replicate_succ] <;> omega
  | case3 m pm p pp l r ih =>
      obtain ⟨h1, h2, h3, h4, h5⟩ := ih
      refine ⟨?_, ?_, ?_, ?_, ?_⟩ <;>
        simp [flushRows, h1, h2, h3, h4, h5, List.replicate_succ,
          Nat.succ_max_succ] <;> omega

theorem leftNums_cons (row : DiffRow) (rows : List DiffRow) :
    leftNums (row :: rows) =
      (Option.bind row.left fun l =>
        if l.kind = LineKind.header then none else some l.number).toList
        ++ leftNums rows := by
  unfold leftNums
  rw [List.filterMap_cons]
  cases hx : Option.bind row.left fun l =>
      if l.kind = LineKind.header then none else some l.number <;> simp [hx]

theorem rightNums_cons (row : DiffRow) (rows : List DiffRow) :
    rightNums (row :: rows) =
      (Option.bind row.right fun l =>
        if l.kind = LineKind.header then none else some l.number).toList
        ++ rightNums rows := by
  unfold rightNums
  rw [List.filterMap_cons]
  cases hx : Option.bind row.right fun l =>
      if l.kind = LineKind.header then none else some l.number <;> simp [hx]

theorem leftContentsDC_cons (row : DiffRow) (rows : List DiffRow) :
    leftContentsDC (row :: rows) =
      (Option.bind row.left fun l =>
        if l.kind = LineKind.deletion ∨ l.kind = LineKind.context then
          some l.content
        else none).toList ++ leftContentsDC rows := by
  unfold leftContentsDC
  rw [List.filterMap_cons]
  cases hx : Option.bind row.left fun l =>
      if l.kind = LineKind.deletion ∨ l.kind = LineKind.context then
        some l.content
      else none <;> simp [hx]

theorem rightContentsAC_cons (row : DiffRow) (rows : List DiffRow) :
    rightContentsAC (row :: rows) =
      (Option.bind row.right fun l =>
        if l.kind = LineKind.addition ∨ l.kind = LineKind.context then
          some l.content
        else none).toList ++ rightContentsAC rows := by
  unfold rightContentsAC
  rw [List.filterMap_cons]
  cases hx : Option.bind row.right fun l =>
      if l.kind = LineKind.addition ∨ l.kind = LineKind.context then
        some l.content
      else none <;> simp [hx]

theorem leftNums_append (xs ys : List DiffRow) :
    leftNums (xs ++ ys) = leftNums xs ++ leftNums ys := by
  simp [leftNums]

theorem rightNums_append (xs ys : List DiffRow) :
    rightNums (xs ++ ys) = rightNums xs ++ rightNums ys := by
  simp [rightNums]

theorem leftContentsDC_append (xs ys : List DiffRow) :
    leftContentsDC (xs ++ ys) = leftContentsDC xs ++ leftContentsDC ys := by
  simp [leftContentsDC]

theorem rightContentsAC_append (xs ys : List DiffRow) :
    rightContentsAC (xs ++ ys) = rightContentsAC xs ++ rightContentsAC ys := by
  simp [rightContentsAC]

/-- Behaviour of the flush loop on the projections, when the buffers hold
what `Parse` ever puts in them — deletions on the minus side, additions on
the plus side — and the counters are at least 1: the emitted old-side lines
are the pending deletions numbered consecutively from the old counter (and
symmetrically for the new side), the displayed contents are exactly the
buffered contents in order, and every emitted row is cross-contamination
free and well-shaped. -/
theorem flushPlusRows_spec (pp : List DiffLine) (r : Nat)
    (hp : ∀ x ∈ pp, x.kind = LineKind.addition) :
    leftNums (flushPlusRows pp r).1 = [] ∧
    rightNums (flushPlusRows pp r).1 = List.range' r pp.length ∧
    leftContentsDC (flushPlusRows pp r).1 = [] ∧
    rightContentsAC (flushPlusRows pp r).1 = pp.map DiffLine.content := by
  induction pp generalizing r with
  | nil => simp [flushPlusRows, leftNums, rightNums, leftContentsDC,
      rightContentsAC]
  | cons p pp ih =>
      have hpk : p.kind = LineKind.addition := hp p (by simp)
      obtain ⟨h1, h2, h3, h4⟩ := ih (r + 1) (fun x hx => hp x (by simp [hx]))
      refine ⟨?_, ?_, ?_, ?_⟩ <;>
        simp [flushPlusRows, leftNums_cons, rightNums_cons,
          leftContentsDC_cons, rightContentsAC_cons, hpk,
          h1, h2, h3, h4, List.range'_succ]

theorem flushRows_spec (pm pp : List DiffLine) (l r : Nat)
    (hm : ∀ x ∈ pm, x.kind = LineKind.deletion)
    (hp : ∀ x ∈ pp, x.kind = LineKind.addition)
    (hl : 1 ≤ l) (hr : 1 ≤ r) :
    leftNums (flushRows pm pp l r).1 = List.range' l pm.length ∧
    rightNums (flushRows pm pp l r).1 = List.range' r pp.length ∧
    leftContentsDC (flushRows pm pp l r).1 = pm.map DiffLine.content ∧
    rightContentsAC (flushRows pm pp l r).1 = pp.map DiffLine.content := by
  induction pm, pp, l, r using flushRows.induct with
  | case1 pp l r =>
      obtain ⟨h1, h2, h3, h4⟩ := flushPlusRows_spec pp r hp
      refine ⟨?_, ?_, ?_, ?_⟩ <;> simp [flushRows, h1, h2, h3, h4]
  | case2 m pm l r ih =>
      have hmk : m.kind = LineKind.deletion := hm m (by simp)
      obtain ⟨h1, h2, h3, h4⟩ :=
        ih (fun x hx => hm x (by simp [hx])) hp (by omega) hr
      refine ⟨?_, ?_, ?_, ?_⟩ <;>
        simp [flushRows, leftNums_cons, rightNums_cons, leftContentsDC_cons,
          rightContentsAC_cons, hmk, h1, h2, h3, h4, List.range'_succ]
  | case3 m pm p pp l r ih =>
      have hmk : m.kind = LineKind.deletion := hm m (by simp)
      have hpk : p.kind = LineKind.addition := hp p (by simp)
      obtain ⟨h1, h2, h3, h4⟩ :=
        ih (fun x hx => hm x (by simp [hx]))
          (fun x hx => hp x (by simp [hx])) (by omega) (by omega)
      refine ⟨?_, ?_, ?_, ?_⟩ <;>
        simp [flushRows, leftNums_cons, rightNums_cons, leftContentsDC_cons,
          rightContentsAC_cons, hmk, hpk, h1, h2, h3, h4, List.range'_succ]

theorem flushPlusRows_rowsOK (pp : List DiffLine) (r : Nat)
    (hp : ∀ x ∈ pp, x.kind = LineKind.addition) (hr : 1 ≤ r) :
    ∀ row ∈ (flushPlusRows pp r).1,
      noCross row = true ∧ shapeOK row = true := by
  induction pp generalizing r with
  | nil => simp [flushPlusRows]
  | cons p pp ih =>
      have hpk : p.kind = LineKind.addition := hp p (by simp)
      intro row hrow
      rw [flushPlusRows] at hrow
      rcases List.mem_cons.mp hrow with hhead | htail
      · subst hhead
        constructor <;> simp [noCross, shapeOK, numberOK, hpk, hr]
      · exact ih (r + 1) (fun x hx => hp x (by simp [hx])) (by omega) row htail

/-- Every row the flush loop emits is cross-contamination free and
well-shaped, when the buffers hold deletions and additions respectively and
the counters are at least 1. -/
theorem flushRows_rowsOK (pm pp : List DiffLine) (l r : Nat)
    (hm : ∀ x ∈ pm, x.kind = LineKind.deletion)
    (hp : ∀ x ∈ pp, x.kind = LineKind.addition)
    (hl : 1 ≤ l) (hr : 1 ≤ r) :
    ∀ row ∈ (flushRows pm pp l r).1, noCross row = true ∧ shapeOK row = true := by
  induction pm, pp, l, r using flushRows.induct with
  | case1 pp l r =>
      intro row hrow
      rw [flushRows] at hrow
      exact flushPlusRows_rowsOK pp r hp hr row hrow
  | case2 m pm l r ih =>
      have hmk : m.kind = LineKind.deletion := hm m (by simp)
      intro row hrow
      rw [flushRows] at hrow
      rcases List.mem_cons.mp hrow with hhead | htail
      · subst hhead
        constructor <;> simp [noCross, shapeOK, numberOK, hmk, hl]
      · exact ih (fun x hx => hm x (by simp [hx])) hp (by omega) hr row htail
  | case3 m pm p pp l r ih =>
      have hmk : m.kind = LineKind.deletion := hm m (by simp)
      have hpk : p.kind = LineKind.addition := hp p (by simp)
      intro row hrow
      rw [flushRows] at hrow
      rcases List.mem_cons.mp hrow with hhead | htail
      · subst hhead
        constructor <;> simp [noCross, shapeOK, numberOK, hmk, hpk, hl, hr]
      · exact ih (fun x hx => hm x (by simp [hx]))
          (fun x hx => hp x (by simp [hx])) (by omega) (by omega) row htail

/-! ### The loop invariant of `Parse` -/

theorem flush_rows_eq (st : ParseState) :
    (st.flush).rows = st.rows ++
      (flushRows st.pendingMinus st.pendingPlus
        st.leftLineNum st.rightLineNum).1 := rfl

theorem flush_pendingMinus_eq (st : ParseState) :
    (st.flush).pendingMinus = [] := rfl

theorem flush_pendingPlus_eq (st : ParseState) :
    (st.flush).pendingPlus = [] := rfl

theorem flush_leftLineNum_eq (st : ParseState) :
    (st.flush).leftLineNum = st.leftLineNum + st.pendingMinus.length :=
  (flushRows_counts st.pendingMinus st.pendingPlus
    st.leftLineNum st.rightLineNum).1

theorem flush_rightLineNum_eq (st : ParseState) :
    (st.flush).rightLineNum = st.rightLineNum + st.pendingPlus.length :=
  (flushRows_counts st.pendingMinus st.pendingPlus
    st.leftLineNum st.rightLineNum).2.1

theorem inv_initState : Inv initState := by
  refine ⟨?_, ?_, ?_, ?_, ?_, ?_, ?_, ?_⟩ <;>
    simp [initState, leftNums, rightNums]

theorem inv_flush (st : ParseState) (h : Inv st) : Inv st.flush := by
  obtain ⟨h1, h2, h3, h4, h5, h6, h7, h8⟩ := h
  obtain ⟨f1, f2, f3, f4⟩ := flushRows_spec st.pendingMinus st.pendingPlus
    st.leftLineNum st.rightLineNum h5 h6 (by omega) (by omega)
  have hOK := flushRows_rowsOK st.pendingMinus st.pendingPlus
    st.leftLineNum st.rightLineNum h5 h6 (by omega) (by omega)
  have e1 : leftNums (st.flush).rows =
      List.range' 1 ((leftNums st.rows).length + st.pendingMinus.length) := by
    rw [flush_rows_eq, leftNums_append, f1, h2]
    nth_rewrite 1 [h1]
    rw [List.range'_append_1 1 (leftNums st.rows).length
      st.pendingMinus.length]
    congr 1
    omega
  have e2 : rightNums (st.flush).rows =
      List.range' 1 ((rightNums st.rows).length + st.pendingPlus.length) := by
    rw [flush_rows_eq, rightNums_append, f2, h4]
    nth_rewrite 1 [h3]
    rw [List.range'_append_1 1 (rightNums st.rows).length
      st.pendingPlus.length]
    congr 1
    omega
  refine ⟨?_, ?_, ?_, ?_, ?_, ?_, ?_, ?_⟩
  · rw [e1]; simp
  · rw [flush_leftLineNum_eq, e1]; simp; omega
  · rw [e2]; simp
  · rw [flush_rightLineNum_eq, e2]; simp; omega
  · simp [flush_pendingMinus_eq]
  · simp [flush_pendingPlus_eq]
  · intro row hrow
    rw [flush_rows_eq] at hrow
    rcases List.mem_append.mp hrow with hx | hx
    · exact h7 row hx
    · exact (hOK row hx).1
  · intro row hrow
    rw [flush_rows_eq] at hrow
    rcases List.mem_append.mp hrow with hx | hx
    · exact h8 row hx
    · exact (hOK row hx).2

theorem inv_append_header (st : ParseState) (h : Inv st) (line : List Char) :
    Inv { st with rows := st.rows ++ [headerRow line] } := by
  obtain ⟨h1, h2, h3, h4, h5, h6, h7, h8⟩ := h
  have hl : leftNums [headerRow line] = [] := by simp [leftNums, headerRow]
  have hr : rightNums [headerRow line] = [] := by simp [rightNums, headerRow]
  refine ⟨?_, ?_, ?_, ?_, h5, h6, ?_, ?_⟩
  · rw [leftNums_append, hl]; simpa using h1
  · rw [leftNums_append, hl]; simpa using h2
  · rw [rightNums_append, hr]; simpa using h3
  · rw [rightNums_append, hr]; simpa using h4
  · intro row hrow
    rcases List.mem_append.mp hrow with hx | hx
    · exact h7 row hx
    · rcases List.mem_singleton.mp hx with rfl
      simp [noCross, headerRow]
  · intro row hrow
    rcases List.mem_append.mp hrow with hx | hx
    · exact h8 row hx
    · rcases List.mem_singleton.mp hx with rfl
      simp [shapeOK, numberOK, headerRow]

theorem inv_context_step (st : ParseState) (h : Inv st) (line : List Char) :
    Inv { st with
      rows := st.rows ++ [contextRow st.leftLineNum st.rightLineNum line],
      leftLineNum := st.leftLineNum + 1,
      rightLineNum := st.rightLineNum + 1 } := by
  obtain ⟨h1, h2, h3, h4, h5, h6, h7, h8⟩ := h
  have hl : leftNums [contextRow st.leftLineNum st.rightLineNum line] =
      [st.leftLineNum] := by simp [leftNums, contextRow]
  have hr : rightNums [contextRow st.leftLineNum st.rightLineNum line] =
      [st.rightLineNum] := by simp [rightNums, contextRow]
  have e1 : leftNums (st.rows ++
      [contextRow st.leftLineNum st.rightLineNum line]) =
      List.range' 1 ((leftNums st.rows).length + 1) := by
    rw [leftNums_append, hl, List.range'_1_concat, h2, h1]
    simp [Nat.add_comm]
  have e2 : rightNums (st.rows ++
      [contextRow st.leftLineNum st.rightLineNum line]) =
      List.range' 1 ((rightNums st.rows).length + 1) := by
    rw [rightNums_append, hr, List.range'_1_concat, h4, h3]
    simp [Nat.add_comm]
  refine ⟨?_, ?_, ?_, ?_, h5, h6, ?_, ?_⟩
  · rw [e1]; simp
  · rw [e1]; simp; omega
  · rw [e2]; simp
  · rw [e2]; simp; omega
  · intro row hrow
    rcases List.mem_append.mp hrow with hx | hx
    · exact h7 row hx
    · rcases List.mem_singleton.mp hx with rfl
      simp [noCross, contextRow]
  · intro row hrow
    rcases List.mem_append.mp hrow with hx | hx
    · exact h8 row hx
    · rcases List.mem_singleton.mp hx with rfl
      have : 1 ≤ st.leftLineNum := by omega
      have : 1 ≤ st.rightLineNum := by omega
      simp [shapeOK, numberOK, contextRow] <;> omega

theorem inv_push_minus (st : ParseState) (h : Inv st) (line : List Char) :
    Inv { st with pendingMinus := st.pendingMinus ++
      [{ number := 0, content := line, kind := LineKind.deletion }] } := by
  obtain ⟨h1, h2, h3, h4, h5, h6, h7, h8⟩ := h
  refine ⟨h1, h2, h3, h4, ?_, h6, h7, h8⟩
  intro x hx
  rcases List.mem_append.mp hx with hy | hy
  · exact h5 x hy
  · rcases List.mem_singleton.mp hy with rfl
    rfl

theorem inv_push_plus (st : ParseState) (h : Inv st) (line : List Char) :
    Inv { st with pendingPlus := st.pendingPlus ++
      [{ number := 0, content := line, kind := LineKind.addition }] } := by
  obtain ⟨h1, h2, h3, h4, h5, h6, h7, h8⟩ := h
  refine ⟨h1, h2, h3, h4, h5, ?_, h7, h8⟩
  intro x hx
  rcases List.mem_append.mp hx with hy | hy
  · exact h6 x hy
  · rcases List.mem_singleton.mp hy with rfl
    rfl

theorem processLine_inv (st : ParseState) (line : List Char) (h : Inv st) :
    Inv (processLine st line) := by
  rw [processLine.eq_def]
  split
  · exact h
  · split
    · exact inv_append_header st.flush (inv_flush st h) line
    · split
      · exact inv_context_step st.flush (inv_flush st h) []
      · split
        · exact inv_push_minus st h _
        · split
          · exact inv_push_plus st h _
          · split
            · exact inv_context_step st.flush (inv_flush st h) _
            · exact h

theorem foldl_inv (lines : List (List Char)) (st : ParseState) (h : Inv st) :
    Inv (List.foldl processLine st lines) := by
  induction lines generalizing st with
  | nil => exact h
  | cons line rest ih => exact ih (processLine st line) (processLine_inv st line h)

theorem parseState_inv (lines : List (List Char)) : Inv (parseState lines) :=
  inv_flush _ (foldl_inv lines initState inv_initState)

/-! ### Order preservation: relating the parser to the spec-side files -/

theorem leftContentsDC_header (line : List Char) :
    leftContentsDC [headerRow line] = [] := by
  simp [leftContentsDC, headerRow]

theorem rightContentsAC_header (line : List Char) :
    rightContentsAC [headerRow line] = [] := by
  simp [rightContentsAC, headerRow]

theorem leftContentsDC_context (l r : Nat) (c : List Char) :
    leftContentsDC [contextRow l r c] = [c] := by
  simp [leftContentsDC, contextRow]

theorem rightContentsAC_context (l r : Nat) (c : List Char) :
    rightContentsAC [contextRow l r c] = [c] := by
  simp [rightContentsAC, contextRow]

theorem inv_parts (st : ParseState) (h : Inv st) :
    (∀ x ∈ st.pendingMinus, x.kind = LineKind.deletion) ∧
    (∀ x ∈ st.pendingPlus, x.kind = LineKind.addition) ∧
    1 ≤ st.leftLineNum ∧ 1 ≤ st.rightLineNum := by
  obtain ⟨h1, h2, h3, h4, h5, h6, h7, h8⟩ := h
  exact ⟨h5, h6, by omega, by omega⟩

/-- A flush moves the pending contents, in order, to the end of the
displayed file contents of the respective side. -/
theorem flush_contents (st : ParseState)
    (hm : ∀ x ∈ st.pendingMinus, x.kind = LineKind.deletion)
    (hp : ∀ x ∈ st.pendingPlus, x.kind = LineKind.addition)
    (hl : 1 ≤ st.leftLineNum) (hr : 1 ≤ st.rightLineNum) :
    leftContentsDC (st.flush).rows =
      leftContentsDC st.rows ++ st.pendingMinus.map DiffLine.content ∧
    rightContentsAC (st.flush).rows =
      rightContentsAC st.rows ++ st.pendingPlus.map DiffLine.content := by
  obtain ⟨f1, f2, f3, f4⟩ := flushRows_spec st.pendingMinus st.pendingPlus
    st.leftLineNum st.rightLineNum hm hp hl hr
  constructor
  · rw [flush_rows_eq, leftContentsDC_append, f3]
  · rw [flush_rows_eq, rightContentsAC_append, f4]

/-- One loop iteration extends the displayed-plus-pending content of each
side by exactly what the spec assigns to this input line. -/
theorem processLine_contents (st : ParseState) (line : List Char)
    (hm : ∀ x ∈ st.pendingMinus, x.kind = LineKind.deletion)
    (hp : ∀ x ∈ st.pendingPlus, x.kind = LineKind.addition)
    (hl : 1 ≤ st.leftLineNum) (hr : 1 ≤ st.rightLineNum) :
    leftContentsDC (processLine st line).rows ++
        (processLine st line).pendingMinus.map DiffLine.content =
      leftContentsDC st.rows ++ st.pendingMinus.map DiffLine.content ++
        (specOldLine line).toList ∧
    rightContentsAC (processLine st line).rows ++
        (processLine st line).pendingPlus.map DiffLine.content =
      rightContentsAC st.rows ++ st.pendingPlus.map DiffLine.content ++
        (specNewLine line).toList := by
  obtain ⟨fc1, fc2⟩ := flush_contents st hm hp hl hr
  by_cases hmeta : isMetadata line = true
  · constructor <;> simp [processLine, specOldLine, specNewLine, hmeta]
  · by_cases hats : "@@".toList.isPrefixOf line = true
    · replace hats : ['@', '@'] <+: line := by simpa using hats
      constructor <;>
        simp [processLine, specOldLine, specNewLine, hmeta, hats,
          leftContentsDC_append, rightContentsAC_append, fc1, fc2,
          leftContentsDC_header, rightContentsAC_header,
          flush_pendingMinus_eq, flush_pendingPlus_eq]
    · replace hats : ¬(['@', '@'] <+: line) := by simpa using hats
      rcases line with _ | ⟨c, cs⟩
      · constructor <;>
          simp [processLine, specOldLine, specNewLine, hmeta, hats,
            leftContentsDC_append, rightContentsAC_append, fc1, fc2,
            leftContentsDC_context, rightContentsAC_context,
            flush_pendingMinus_eq, flush_pendingPlus_eq]
      · by_cases hcm : c = '-'
        · subst hcm
          constructor <;>
            simp [processLine, specOldLine, specNewLine, hmeta, hats]
        · by_cases hcp : c = '+'
          · subst hcp
            constructor <;>
              simp [processLine, specOldLine, specNewLine, hmeta, hats, hcm]
          · by_cases hcs : c = ' '
            · subst hcs
              constructor <;>
                simp [processLine, specOldLine, specNewLine, hmeta, hats,
                  hcm, hcp, leftContentsDC_append, rightContentsAC_append,
                  fc1, fc2, leftContentsDC_context, rightContentsAC_context,
                  flush_pendingMinus_eq, flush_pendingPlus_eq]
            · constructor <;>
                simp [processLine, specOldLine, specNewLine, hmeta, hats,
                  hcm, hcp, hcs]

/-- Fold version of `processLine_contents`: over any suffix of the input,
the displayed-plus-pending contents grow by exactly the spec-assigned
contents of the processed lines, in order. -/
theorem foldl_contents (lines : List (List Char)) (st : ParseState)
    (h : Inv st) :
    leftContentsDC (List.foldl processLine st lines).rows ++
        (List.foldl processLine st lines).pendingMinus.map DiffLine.content =
      leftContentsDC st.rows ++ st.pendingMinus.map DiffLine.content ++
        lines.filterMap specOldLine ∧
    rightContentsAC (List.foldl processLine st lines).rows ++
        (List.foldl processLine st lines).pendingPlus.map DiffLine.content =
      rightContentsAC st.rows ++ st.pendingPlus.map DiffLine.content ++
        lines.filterMap specNewLine := by
  induction lines generalizing st with
  | nil => simp
  | cons line rest ih =>
      obtain ⟨hm, hp, hl, hr⟩ := inv_parts st h
      obtain ⟨e1, e2⟩ := processLine_contents st line hm hp hl hr
      obtain ⟨i1, i2⟩ := ih (processLine st line) (processLine_inv st line h)
      constructor
      · rw [List.foldl_cons, i1, e1]
        rcases hso : specOldLine line with _ | v <;>
          simp [List.filterMap_cons, hso]
      · rw [List.foldl_cons, i2, e2]
        rcases hsn : specNewLine line with _ | v <;>
          simp [List.filterMap_cons, hsn]

/-! ### The claims -/

theorem flushNew_eq (st : ParseState) :
    flushNew st = (flushRows st.pendingMinus st.pendingPlus
      st.leftLineNum st.rightLineNum).1 := rfl

/-- Claim C1: every flush appends exactly
`max(|pending deletions|, |pending additions|)` rows; in the appended rows
the old side is present exactly on the indices below the pending-deletion
count and the new side exactly on the indices below the pending-addition
count (the presence bitmaps are a block of `true` of the buffer's length
followed by `false`), and both pending buffers are empty afterwards. -/
theorem claim_c1_flush_alignment (st : ParseState) :
    (st.flush).rows = st.rows ++ flushNew st ∧
    (flushNew st).length = max st.pendingMinus.length st.pendingPlus.length ∧
    ((flushNew st).map fun row => row.left.isSome) =
      List.replicate st.pendingMinus.length true ++
        List.replicate ((flushNew st).length - st.pendingMinus.length)
          false ∧
    ((flushNew st).map fun row => row.right.isSome) =
      List.replicate st.pendingPlus.length true ++
        List.replicate ((flushNew st).length - st.pendingPlus.length)
          false ∧
    (st.flush).pendingMinus = [] ∧
    (st.flush).pendingPlus = [] := by
  have hres := flushRows_counts st.pendingMinus st.pendingPlus
    st.leftLineNum st.rightLineNum
  refine ⟨flush_rows_eq st, hres.2.2.1, ?_, ?_, rfl, rfl⟩
  · rw [flushNew_eq, hres.2.2.1]
    exact hres.2.2.2.1
  · rw [flushNew_eq, hres.2.2.1]
    exact hres.2.2.2.2

/-- Claim C2: in the rows `Parse` returns, the old-side line numbers (of the
present, numbered old-side lines — header lines carry no line number) are
exactly `1, 2, 3, …` in row order, and symmetrically for the new side; the
final counters sit one past the respective counts, so only numbered content
advanced them. -/
theorem claim_c2_numbering (lines : List (List Char)) :
    leftNums (parseLines lines) =
      List.range' 1 (leftNums (parseLines lines)).length ∧
    rightNums (parseLines lines) =
      List.range' 1 (rightNums (parseLines lines)).length ∧
    (parseState lines).leftLineNum =
      1 + (leftNums (parseLines lines)).length ∧
    (parseState lines).rightLineNum =
      1 + (rightNums (parseLines lines)).length := by
  obtain ⟨h1, h2, h3, h4, h5, h6, h7, h8⟩ := parseState_inv lines
  exact ⟨h1, h3, h2, h4⟩

/-- Claim C3: reading the present old-side lines of kind deletion or
context in row order reproduces exactly the input's deletion and context
lines in arrival order (the old file's content as the spec describes it),
and symmetrically on the new side for additions and context. -/
theorem claim_c3_order_preservation (lines : List (List Char)) :
    leftContentsDC (parseLines lines) = lines.filterMap specOldLine ∧
    rightContentsAC (parseLines lines) = lines.filterMap specNewLine := by
  have hinv := foldl_inv lines initState inv_initState
  obtain ⟨hm, hp, hl, hr⟩ := inv_parts _ hinv
  obtain ⟨fc1, fc2⟩ := flush_contents _ hm hp hl hr
  obtain ⟨i1, i2⟩ := foldl_contents lines initState inv_initState
  constructor
  · show leftContentsDC ((List.foldl processLine initState lines).flush).rows
      = _
    rw [fc1, i1]
    simp [initState, leftContentsDC]
  · show rightContentsAC
      ((List.foldl processLine initState lines).flush).rows = _
    rw [fc2, i2]
    simp [initState, rightContentsAC]

/-- Claim C4: in every returned row, a present old-side line is never an
addition and a present new-side line is never a deletion. -/
theorem claim_c4_no_cross (lines : List (List Char)) :
    (parseLines lines).all noCross = true := by
  obtain ⟨h1, h2, h3, h4, h5, h6, h7, h8⟩ := parseState_inv lines
  exact List.all_eq_true.mpr h7

/-- Claim C5: `Parse` returns exactly the scanner's error — `none` on a
clean end of input, the read failure otherwise; the rows parsed from the
delivered lines are returned in either case (so content irregularities,
which the row construction absorbs totally, never produce an error), and
the empty input yields zero rows and no error. -/
theorem claim_c5_failure_semantics (input : ScannerInput) :
    (Parse input).2 = input.readErr ∧
    (Parse input).1 = parseLines input.lines ∧
    Parse { lines := [], readErr := none } = ([], none) :=
  ⟨rfl, rfl, by decide⟩

/-- Claim C7: a zero-length input line triggers a flush and then emits one
context row: both sides present, kind context, identical (empty) content,
each numbered with its side's current counter, and both counters advance
by 1. -/
theorem claim_c7_empty_line (st : ParseState) :
    processLine st [] =
      { st.flush with
        rows := (st.flush).rows ++
          [contextRow (st.flush).leftLineNum (st.flush).rightLineNum []],
        leftLineNum := (st.flush).leftLineNum + 1,
        rightLineNum := (st.flush).rightLineNum + 1 } := rfl

/-- Claim C10: every returned row has at least one present side; the
possible shapes are exactly context/context with equal content,
header/header with equal content, deletion paired with addition, deletion
alone, and addition alone; and a present line carries a number at least 1
exactly when it is not a header (headers carry the unset number 0). -/
theorem claim_c10_row_shapes (lines : List (List Char)) :
    (parseLines lines).all shapeOK = true := by
  obtain ⟨h1, h2, h3, h4, h5, h6, h7, h8⟩ := parseState_inv lines
  exact List.all_eq_true.mpr h8

/-- Claim C6: a line beginning with `@@` first flushes the pending buffers
and then emits exactly one header row: both sides present, kind header,
content the full header line, number unset (0); the counters are exactly
those left by the flush, so the header row advances neither. -/
theorem claim_c6_hunk_header (st : ParseState) (line : List Char)
    (hats : "@@".toList.isPrefixOf line = true) :
    processLine st line =
      { st.flush with rows := (st.flush).rows ++ [headerRow line] } := by
  obtain ⟨t, rfl⟩ := List.isPrefixOf_iff_prefix.mp hats
  have hmeta : isMetadata ('@' :: '@' :: t) = false := rfl
  rw [processLine.eq_def, if_neg (by simp [hmeta]), if_pos hats]

/-- Witness for C6: on the spec's example header with nothing pending, one
header row is emitted and both counters remain at 1. -/
theorem claim_c6_hunk_header_witness :
    processLine initState "@@ -1,2 +1,2 @@".toList =
      { initState.flush with rows :=
          (initState.flush).rows ++ [headerRow "@@ -1,2 +1,2 @@".toList] } ∧
    (processLine initState "@@ -1,2 +1,2 @@".toList).rows =
      [headerRow "@@ -1,2 +1,2 @@".toList] ∧
    (processLine initState "@@ -1,2 +1,2 @@".toList).leftLineNum = 1 ∧
    (processLine initState "@@ -1,2 +1,2 @@".toList).rightLineNum = 1 :=
  ⟨claim_c6_hunk_header initState _ (by decide), by decide, by decide,
    by decide⟩

/-- Claim C8: metadata lines (prefix `diff`, `index`, `---`, `+++`) leave
the state untouched — in particular `---`/`+++` lines are never buffered as
deletions/additions although they start with `-`/`+`; any other non-empty
non-header line whose first character is not `-`, `+` or a space is also
dropped with no effect; and an input of only metadata lines yields zero
rows. -/
theorem claim_c8_metadata_discarded :
    (∀ st line, isMetadata line = true → processLine st line = st) ∧
    (∀ st c cs, isMetadata (c :: cs) = false →
      "@@".toList.isPrefixOf (c :: cs) = false →
      ¬c = '-' → ¬c = '+' → ¬c = ' ' →
      processLine st (c :: cs) = st) ∧
    (∀ lines, (∀ l ∈ lines, isMetadata l = true) → parseLines lines = []) := by
  have hdrop : ∀ st line, isMetadata line = true → processLine st line = st := by
    intro st line hmeta
    rw [processLine.eq_def, if_pos hmeta]
  refine ⟨hdrop, ?_, ?_⟩
  · intro st c cs hmeta hats hcm hcp hcs
    rw [processLine.eq_def, if_neg (by simp [hmeta]),
      if_neg (by rw [hats]; simp)]
    simp [hcm, hcp, hcs]
  · intro lines hall
    have hfold : ∀ ls (st : ParseState), (∀ l ∈ ls, isMetadata l = true) →
        List.foldl processLine st ls = st := by
      intro ls
      induction ls with
      | nil => intro st _; rfl
      | cons a as ih =>
          intro st hls
          rw [List.foldl_cons, hdrop st a (hls a (by simp))]
          exact ih st (fun l hl => hls l (by simp [hl]))
    show ((List.foldl processLine initState lines).flush).rows = []
    rw [hfold lines initState hall]
    rfl

/-- Witness for C8: concrete metadata and unknown-marker lines leave the
initial state untouched, and a metadata-only input yields zero rows. -/
theorem claim_c8_metadata_discarded_witness :
    processLine initState "--- a/old".toList = initState ∧
    processLine initState "+++ b/new".toList = initState ∧
    processLine initState "? oddity".toList = initState ∧
    parseLines ["diff --git a/f b/f".toList, "index 00..11 100644".toList,
      "--- a/f".toList, "+++ b/f".toList] = [] := by
  refine ⟨claim_c8_metadata_discarded.1 initState _ (by decide),
    claim_c8_metadata_discarded.1 initState _ (by decide),
    ?_,
    claim_c8_metadata_discarded.2.2 _ (by decide)⟩
  exact claim_c8_metadata_discarded.2.1 initState '?' " oddity".toList
    (by decide) (by decide) (by decide) (by decide) (by decide)

theorem byteLen_bigLine : byteLen bigLine = maxTokenSize + 1 := by
  show byteLen bigLine = 4 * 1024 * 1024 + 1
  rw [byteLen, bigLine, List.map_replicate, List.sum_replicate, smul_eq_mul,
    show Char.utf8Size 'a' = 1 from rfl, Nat.mul_one]

/-- If any delivered-or-pending physical line exceeds the token limit, the
scanner stops with an error. -/
theorem scanWithLimit_err (phys : List (List Char))
    (h : ∃ l ∈ phys, maxTokenSize < byteLen l) :
    (scanWithLimit phys).readErr ≠ none := by
  induction phys with
  | nil => simp at h
  | cons l ls ih =>
      by_cases hc : maxTokenSize < byteLen l
      · simp [scanWithLimit, hc]
      · obtain ⟨x, hx, hlen⟩ := h
        rcases List.mem_cons.mp hx with rfl | hx'
        · exact absurd hlen hc
        · have hres := ih ⟨x, hx', hlen⟩
          simp only [scanWithLimit, if_neg hc]
          exact hres

/-- Claim C9: a physical line longer than the 4 MiB token limit makes
`Parse` return an error even though no underlying I/O failure occurred; in
particular a single line of 4 MiB + 1 bytes yields an error and no rows. -/
theorem claim_c9_token_limit :
    (∀ phys line, line ∈ phys → maxTokenSize < byteLen line →
      (ParseRaw phys).2 ≠ none) ∧
    byteLen bigLine = maxTokenSize + 1 ∧
    (ParseRaw [bigLine]).2 ≠ none ∧
    (ParseRaw [bigLine]).1 = [] := by
  have hgen : ∀ phys (line : List Char), line ∈ phys →
      maxTokenSize < byteLen line → (ParseRaw phys).2 ≠ none := by
    intro phys line hmem hlen
    exact scanWithLimit_err phys ⟨line, hmem, hlen⟩
  have hbig : maxTokenSize < byteLen bigLine := by
    rw [byteLen_bigLine]; omega
  refine ⟨hgen, byteLen_bigLine, hgen [bigLine] bigLine (by simp) hbig, ?_⟩
  have hscan : (scanWithLimit [bigLine]).lines = [] := by
    simp [scanWithLimit, hbig]
  show parseLines (scanWithLimit [bigLine]).lines = []
  rw [hscan]
  rfl

/-- Witness for C9: the concrete over-long line produces a scan error. -/
theorem claim_c9_token_limit_witness : (ParseRaw [bigLine]).2 ≠ none :=
  claim_c9_token_limit.1 [bigLine] bigLine (by simp)
    (by rw [byteLen_bigLine]; omega)

end Diffbubble
